import Mathlib

/-!
# Time-tracking report: the producer/consumer pipeline

A shallow embedding of `src/ThreadSafeQueue.h` and `src/main.cpp`.

* `std::string` is a list of characters.
* `std::stringstream` is the list of unread characters together with its
  `eofbit` and `failbit`; `ignore` and `getline` follow the standard's
  unformatted-input rules (a sentry that fails on a stream that is not good
  sets `failbit` and leaves the target string untouched).  A character stands
  for one `char`, a byte; `char` is signed and the library is libstdc++, which
  matters for `ignore` alone: its delimiter is an `int_type`, and a separator
  with the high bit set is never met.
* `int` values live in `Int`; the accumulation `+=` wraps modulo `2 ^ 32`
  (two's complement), the result the usual compilers give where the standard
  leaves signed overflow undefined.
* `std::unordered_map<NameNMonth, int>` is an association list without
  repeated keys; its iteration order is unspecified in C++, so only lookups and
  the set of entries are meaningful.
* `boost::gregorian::from_simple_string` is library code; the consumer takes it
  as a parameter (`none` stands for the exception it throws).
* The queue is used by two threads.  A `ThreadSafeQueue` value here is the
  content of `_queue` front first, and the consumer is run on the sequence of
  items that are pushed over the whole run: it pops them in that order, and
  would wait forever once they are exhausted.
-/

namespace TimeTracking

/-- The type `std::string`. -/
abbrev Str := List Char

/-! ## ThreadSafeQueue.h -/

/-- The member `_queue` of `ThreadSafeQueue<T>`, front first. -/
abbrev ThreadSafeQueue (T : Type) := List T

/-- The method `push`: `_queue.push(val)` under the lock. -/
def ThreadSafeQueue.push {T : Type} (q : ThreadSafeQueue T) (val : T) : ThreadSafeQueue T :=
  q ++ [val]

/-- The method `wait_and_pop`: on a non-empty queue the front item and the rest;
`none` when the queue is empty, where the caller waits on the condition variable. -/
def ThreadSafeQueue.wait_and_pop {T : Type} : ThreadSafeQueue T → Option (T × ThreadSafeQueue T)
  | [] => none
  | val :: rest => some (val, rest)

/-- One call on the queue. -/
inductive QueueOp (T : Type) where
  | push (val : T)
  | wait_and_pop

/-- Runs calls one at a time; the result is the final queue and the values the
pops returned, in order.  `none` when a pop starts on an empty queue. -/
def runOps {T : Type} : List (QueueOp T) → ThreadSafeQueue T → Option (ThreadSafeQueue T × List T)
  | [], q => some (q, [])
  | QueueOp.push val :: ops, q => runOps ops (ThreadSafeQueue.push q val)
  | QueueOp.wait_and_pop :: ops, q =>
    match ThreadSafeQueue.wait_and_pop q with
    | none => none
    | some (val, q1) =>
      match runOps ops q1 with
      | none => none
      | some (q2, outs) => some (q2, val :: outs)

/-- The values pushed by a sequence of calls, in order. -/
def pushedValues {T : Type} : List (QueueOp T) → List T
  | [] => []
  | QueueOp.push val :: ops => val :: pushedValues ops
  | QueueOp.wait_and_pop :: ops => pushedValues ops

/-- The number of pops in a sequence of calls. -/
def popCount {T : Type} : List (QueueOp T) → Nat
  | [] => 0
  | QueueOp.push _ :: ops => popCount ops
  | QueueOp.wait_and_pop :: ops => popCount ops + 1

/-! ## std::stringstream -/

/-- A `std::stringstream` opened on a string: the unread characters and the
state bits (`badbit` is never set on a string buffer). -/
structure StringStream where
  buf : List Char
  eofbit : Bool
  failbit : Bool
  deriving DecidableEq, Repr

/-- The constructor `std::stringstream ss(line)`. -/
def StringStream.mk0 (line : Str) : StringStream :=
  { buf := line, eofbit := false, failbit := false }

/-- The test `good()`. -/
def StringStream.good (ss : StringStream) : Bool :=
  !ss.eofbit && !ss.failbit

/-- Extraction up to a delimiter: the characters before the first `sep`, and
the characters after it, or `none` when the end of the buffer comes first. -/
def untilDelim (sep : Char) : List Char → List Char × Option (List Char)
  | [] => ([], none)
  | c :: cs =>
    if c = sep then ([], some cs)
    else (c :: (untilDelim sep cs).1, (untilDelim sep cs).2)

/-- The call `ss.ignore(numeric_limits<streamsize>::max(), sep)`; `none` when
the call never returns.  On a stream that is not good the sentry sets
`failbit`.  On a good stream the delimiter parameter is an `int_type`, so
`char sep` is converted to `int`:
* a 7-bit separator keeps its value: the stream is discarded through the next
  `sep`, or to the end of the buffer, which sets `eofbit`;
* a separator with the high bit set becomes negative and equals the value
  (0 to 255) of no character: libstdc++ searches for the separator byte, and
  when it finds it with characters after it makes no progress and never
  returns; otherwise it discards the rest of the buffer and sets `eofbit`;
* the byte 255 becomes -1, the value of `eof`, and the call is `ignore(n)`:
  the rest of the buffer is discarded and `eofbit` is set. -/
def StringStream.ignore (ss : StringStream) (sep : Char) : Option StringStream :=
  if ss.good then
    if sep.toNat < 128 then
      match (untilDelim sep ss.buf).2 with
      | some rest => some { buf := rest, eofbit := false, failbit := false }
      | none => some { buf := [], eofbit := true, failbit := false }
    else if sep.toNat = 255 then some { buf := [], eofbit := true, failbit := false }
    else
      match (untilDelim sep ss.buf).2 with
      | some (_ :: _) => none
      | _ => some { buf := [], eofbit := true, failbit := false }
  else some { ss with failbit := true }

/-- The call `std::getline(ss, str, sep)`: on a good stream `str` is erased and
receives the characters up to the next `sep` (extracted, not stored); the end of
the buffer sets `eofbit`, and `failbit` too when nothing was extracted.  On a
stream that is not good the sentry sets `failbit` and `str` keeps its value. -/
def StringStream.getline (ss : StringStream) (str : Str) (sep : Char) : StringStream × Str :=
  if ss.good then
    match (untilDelim sep ss.buf).2 with
    | some rest => ({ buf := rest, eofbit := false, failbit := false }, (untilDelim sep ss.buf).1)
    | none =>
      ({ buf := [], eofbit := true, failbit := (untilDelim sep ss.buf).1.isEmpty },
        (untilDelim sep ss.buf).1)
  else ({ ss with failbit := true }, str)

/-- The loop `for (; i < bound; ++i) ss.ignore(max, sep)`, given its number of
iterations `bound - i`; `none` when a call of `ignore` never returns. -/
def ignoreLoop (sep : Char) : Nat → StringStream → Option StringStream
  | 0, ss => some ss
  | k + 1, ss =>
    match ss.ignore sep with
    | none => none
    | some ss1 => ignoreLoop sep k ss1

/-! ## std::stoi -/

/-- What the consumer can throw. -/
inductive Exception where
  | bad_date
  | invalid_argument
  | out_of_range
  deriving DecidableEq, Repr

/-- The largest `int`. -/
def INT_MAX : Int := 2147483647

/-- The smallest `int`. -/
def INT_MIN : Int := -2147483648

/-- The test `isspace` in the C locale. -/
def isspace (c : Char) : Bool :=
  c = ' ' || c = '\t' || c = '\n' || c = '\x0b' || c = '\x0c' || c = '\r'

/-- The test `isdigit`. -/
def isdigit (c : Char) : Bool :=
  decide ('0' ≤ c) && decide (c ≤ '9')

/-- The value of a run of decimal digits. -/
def digitsValue (ds : List Char) : Nat :=
  ds.foldl (fun acc c => 10 * acc + (c.toNat - 48)) 0

/-- The optional sign `strtol` accepts: whether it is a minus, and the rest. -/
def stripSign : List Char → Bool × List Char
  | [] => (false, [])
  | c :: rest =>
    if c = '-' then (true, rest)
    else if c = '+' then (false, rest)
    else (false, c :: rest)

/-- The call `std::stoi(str)` (base 10, no position argument): `strtol` skips
leading white space, reads an optional sign and the longest run of digits and
ignores what follows; no digit gives `invalid_argument`, a value outside `int`
gives `out_of_range`. -/
def stoi (str : Str) : Except Exception Int :=
  let signed := stripSign (str.dropWhile isspace)
  let ds := signed.2.takeWhile isdigit
  if ds.isEmpty then Except.error Exception.invalid_argument
  else
    let v : Int := if signed.1 then -(digitsValue ds : Int) else (digitsValue ds : Int)
    if INT_MIN ≤ v ∧ v ≤ INT_MAX then Except.ok v else Except.error Exception.out_of_range

/-- Addition of two `int` values as the hardware does it. -/
def wrapInt (x : Int) : Int :=
  (x + 2147483648) % 4294967296 - 2147483648

/-! ## Dates -/

/-- What the consumer reads of a `boost::gregorian::date`. -/
structure Date where
  year : Nat
  month : Nat
  day : Nat
  deriving DecidableEq, Repr

/-- The number of days of a month of the Gregorian calendar. -/
def daysInMonth (year month : Nat) : Nat :=
  if month = 2 then
    if year % 4 = 0 ∧ (year % 100 ≠ 0 ∨ year % 400 = 0) then 29 else 28
  else if month = 4 ∨ month = 6 ∨ month = 9 ∨ month = 11 then 30
  else 31

/-- A date parser for concrete runs: the result of Boost's `from_simple_string`
on a string of the exact form `YYYY-MM-DD` that names a day of the calendar
(years 1400 to 9999), and `none` on every other string.  The theorems about the
consumer hold for every parser; this one only instantiates them. -/
def isoDate : Str → Option Date
  | [y1, y2, y3, y4, s1, m1, m2, s2, d1, d2] =>
    let year := digitsValue [y1, y2, y3, y4]
    let month := digitsValue [m1, m2]
    let day := digitsValue [d1, d2]
    if [y1, y2, y3, y4, m1, m2, d1, d2].all isdigit ∧ s1 = '-' ∧ s2 = '-'
        ∧ 1400 ≤ year ∧ 1 ≤ month ∧ month ≤ 12 ∧ 1 ≤ day ∧ day ≤ daysInMonth year month then
      some { year := year, month := month, day := day }
    else none
  | _ => none

/-! ## main.cpp -/

/-- The struct `NameNMonth`; its `operator==` compares the three members. -/
structure NameNMonth where
  name : Str
  month : Int
  year : Int
  deriving DecidableEq, Repr

/-- The type `HoursByNameNMonth`: the entries of the `unordered_map`. -/
abbrev HoursByNameNMonth := List (NameNMonth × Int)

/-- The constant `POISON_PILL`. -/
def POISON_PILL : Str := String.toList "poison pill"

/-- The statement `hours_by_name_n_month[key] += v`: `operator[]` inserts a
zero entry for a new key, then the value is increased. -/
def addHours : HoursByNameNMonth → NameNMonth → Int → HoursByNameNMonth
  | [], key, v => [(key, wrapInt (0 + v))]
  | (k, x) :: m, key, v =>
    if k = key then (k, wrapInt (x + v)) :: m else (k, x) :: addHours m key v

/-- The value stored for a key, `none` when the map has no such entry. -/
def lookup : HoursByNameNMonth → NameNMonth → Option Int
  | [], _ => none
  | (k, x) :: m, key => if k = key then some x else lookup m key

/-- The strings `name`, `date_str` and `hours` of `do_consumers_work`, which
are declared before the loop and so keep their values from line to line. -/
structure LineVars where
  name : Str
  date_str : Str
  hours : Str
  deriving DecidableEq, Repr

/-- The parsing step of the loop body of `do_consumers_work` (lines 225-242):
one pass over the stream with the shared counter `i`; `none` when a call of
`ignore` never returns. -/
def extractColumns (sep : Char) (name_idx date_idx hours_idx : Nat) (vars : LineVars)
    (line : Str) : Option LineVars :=
  let ss := StringStream.mk0 line
  let i := 0
  match ignoreLoop sep (name_idx - i) ss with
  | none => none
  | some ss =>
    let i := max i name_idx
    let r := ss.getline vars.name sep
    let name := r.2
    let i := i + 1
    match ignoreLoop sep (date_idx - i) r.1 with
    | none => none
    | some ss =>
      let i := max i date_idx
      let r := ss.getline vars.date_str sep
      let date_str := r.2
      let i := i + 1
      match ignoreLoop sep (hours_idx - i) r.1 with
      | none => none
      | some ss =>
        let r := ss.getline vars.hours sep
        some { name := name, date_str := date_str, hours := r.2 }

/-- How the consumer thread ends: it returns, leaving the map and what is left
in the queue; or an exception leaves `do_consumers_work` (the thread function,
so the process is terminated); or it waits for ever in `wait_and_pop`; or a
call of `ss.ignore` never returns. -/
inductive Outcome where
  | returned (hours_by_name_n_month : HoursByNameNMonth) (thread_safe_queue : ThreadSafeQueue Str)
  | threw (e : Exception)
  | blocked
  | ignore_hangs
  deriving DecidableEq, Repr

/-- The loop of `do_consumers_work`.  The pattern `line :: queue` is
`wait_and_pop` on a non-empty queue, `[]` is the empty queue. -/
def consumerLoop (from_simple_string : Str → Option Date) (sep : Char)
    (name_idx date_idx hours_idx : Nat) :
    LineVars → HoursByNameNMonth → ThreadSafeQueue Str → Outcome
  | _, _, [] => Outcome.blocked
  | vars, m, line :: queue =>
    if line = POISON_PILL then Outcome.returned m queue
    else
      match extractColumns sep name_idx date_idx hours_idx vars line with
      | none => Outcome.ignore_hangs
      | some vars1 =>
        match from_simple_string vars1.date_str with
        | none => Outcome.threw Exception.bad_date
        | some date =>
          match stoi vars1.hours with
          | Except.error e => Outcome.threw e
          | Except.ok v =>
            consumerLoop from_simple_string sep name_idx date_idx hours_idx vars1
              (addHours m { name := vars1.name, month := date.month, year := date.year } v) queue

/-- The function `do_consumers_work`. -/
def do_consumers_work (from_simple_string : Str → Option Date)
    (thread_safe_queue : ThreadSafeQueue Str) (sep : Char) (name_idx date_idx hours_idx : Nat)
    (hours_by_name_n_month : HoursByNameNMonth) : Outcome :=
  consumerLoop from_simple_string sep name_idx date_idx hours_idx
    { name := [], date_str := [], hours := [] } hours_by_name_n_month thread_safe_queue

/-- The `if`/`else if` chain of the loop body of `parse_header`, on the triple
`(name_idx, date_idx, hours_idx)`. -/
def assignColumn (col : Str) (idx : Nat) (r : Nat × Nat × Nat) : Nat × Nat × Nat :=
  if col = String.toList "Name" then (idx, r.2.1, r.2.2)
  else if col = String.toList "date" then (r.1, idx, r.2.2)
  else if col = String.toList "logged hours" then (r.1, r.2.1, idx)
  else r

/-- The loop `while (std::getline(ss, col, sep))` of `parse_header`: the
condition is the stream converted to `bool`, that is `!fail()`. -/
def headerLoop (sep : Char) (ss : StringStream) (col : Str) (idx : Nat)
    (r : Nat × Nat × Nat) : Nat × Nat × Nat :=
  if (ss.getline col sep).1.failbit = true then r
  else
    headerLoop sep (ss.getline col sep).1 (ss.getline col sep).2 (idx + 1)
      (assignColumn (ss.getline col sep).2 idx r)
termination_by ss.buf.length + (if ss.good = true then 1 else 0)
decreasing_by
  rename_i hfail
  revert hfail
  have shorter : ∀ (buf rest : List Char),
      (untilDelim sep buf).2 = some rest → rest.length < buf.length := by
    intro buf
    induction buf with
    | nil => intro rest h; simp [untilDelim] at h
    | cons c cs ih =>
      intro rest h
      unfold untilDelim at h
      by_cases hc : c = sep
      · simp [hc] at h
        subst h
        simp
      · simp [hc] at h
        have := ih rest h
        simp
        omega
  unfold StringStream.getline
  by_cases hg : ss.good = true
  · simp only [hg, if_true]
    cases hu : (untilDelim sep ss.buf).2 with
    | none => simp [StringStream.good]
    | some rest =>
      intro _
      have hlen : rest.length < ss.buf.length := shorter ss.buf rest hu
      simp [StringStream.good]
      omega
  · simp [hg]

/-- The function `parse_header`, given the header line `std::getline` read from
the file (the empty string when the file has no line). -/
def parse_header (header : Str) (sep : Char) : Nat × Nat × Nat :=
  headerLoop sep (StringStream.mk0 header) [] 0 (0, 0, 0)

/-- The producer loop of `main` (lines 115-122) over the data lines of the
file, on the pair of the queue and the lines written to `std::cerr`.
`banned_lines` is the content of the `std::set`. -/
def producerLoop (banned_lines : List Str) :
    List Str → ThreadSafeQueue Str × List Str → ThreadSafeQueue Str × List Str
  | [], st => st
  | line :: rest, st =>
    if line ∈ banned_lines then producerLoop banned_lines rest (st.1, st.2 ++ [line])
    else producerLoop banned_lines rest (ThreadSafeQueue.push st.1 line, st.2)

/-- The producer side of `main` (lines 115-123): the loop, then
`thread_safe_queue.push(POISON_PILL)`.  The queue it leaves, were nothing
popped meanwhile, is the sequence of pushed items. -/
def producer (banned_lines : List Str) (lines : List Str) : ThreadSafeQueue Str × List Str :=
  (ThreadSafeQueue.push (producerLoop banned_lines lines ([], [])).1 POISON_PILL,
    (producerLoop banned_lines lines ([], [])).2)

/-- The pipeline of `main` on the lines of the input file: the header gives the
indices, the consumer runs on what the producer pushes, and the outcome of the
consumer thread is what `t.join()` meets. -/
def main (from_simple_string : Str → Option Date) (banned_lines : List Str) (sep : Char)
    (file : List Str) : Outcome :=
  do_consumers_work from_simple_string (producer banned_lines file.tail).1 sep
    (parse_header (file.headD []) sep).1 (parse_header (file.headD []) sep).2.1
    (parse_header (file.headD []) sep).2.2 []

/-! ## Reference definitions, in the words of the specification -/

/-- The separator-delimited fields of a line. -/
def splitFields (sep : Char) : List Char → List Str
  | [] => [[]]
  | c :: cs =>
    if c = sep then [] :: splitFields sep cs
    else
      match splitFields sep cs with
      | [] => [[c]]
      | f :: fs => (c :: f) :: fs

/-- A base-10 integer and its value: an optional sign, then one or more
digits and nothing else. -/
def decimalValue (s : Str) : Option Int :=
  if (stripSign s).2 ≠ [] ∧ (stripSign s).2.all isdigit = true then
    some (if (stripSign s).1 then -(digitsValue (stripSign s).2 : Int)
          else (digitsValue (stripSign s).2 : Int))
  else none

/-- The key and the hours a valid line stands for: name, date and hours are the
fields at the three indices, the date parses, and the hours field is a base-10
integer that an `int` holds.  `none` for a line that is not valid. -/
def specEntry (from_simple_string : Str → Option Date) (sep : Char)
    (name_idx date_idx hours_idx : Nat) (line : Str) : Option (NameNMonth × Int) :=
  match (splitFields sep line)[name_idx]?, (splitFields sep line)[date_idx]?,
      (splitFields sep line)[hours_idx]? with
  | some name, some date_str, some hours =>
    match from_simple_string date_str, decimalValue hours with
    | some date, some v =>
      if INT_MIN ≤ v ∧ v ≤ INT_MAX then
        some ({ name := name, month := date.month, year := date.year }, v)
      else none
    | _, _ => none
  | _, _, _ => none

/-- A valid line: not the sentinel text, and it stands for a key and hours. -/
def ValidLine (from_simple_string : Str → Option Date) (sep : Char)
    (name_idx date_idx hours_idx : Nat) (line : Str) : Prop :=
  line ≠ POISON_PILL ∧
    (specEntry from_simple_string sep name_idx date_idx hours_idx line).isSome = true

instance (from_simple_string : Str → Option Date) (sep : Char)
    (name_idx date_idx hours_idx : Nat) (line : Str) :
    Decidable (ValidLine from_simple_string sep name_idx date_idx hours_idx line) := by
  unfold ValidLine
  infer_instance

/-- The keys and hours of a list of lines, line by line. -/
def specEntries (from_simple_string : Str → Option Date) (sep : Char)
    (name_idx date_idx hours_idx : Nat) (lines : List Str) : List (NameNMonth × Int) :=
  lines.filterMap (specEntry from_simple_string sep name_idx date_idx hours_idx)

/-- The sum of the hours of the entries with a given key. -/
def sumFor (key : NameNMonth) : List (NameNMonth × Int) → Int
  | [] => 0
  | (k, v) :: es => if k = key then v + sumFor key es else sumFor key es

/-- The buffer left after `k` fields and their delimiters were consumed, `none`
when the line has no `k`-th delimiter. -/
def skipFields (sep : Char) : Nat → List Char → Option (List Char)
  | 0, buf => some buf
  | k + 1, buf =>
    match (untilDelim sep buf).2 with
    | none => none
    | some rest => skipFields sep k rest

/-- The stream of a line after `j` calls of `ignore` or `getline` with a 7-bit
separator: good and at the start of field `j`, or no longer good when the line
has no such field. -/
def AtField (sep : Char) (line : Str) (j : Nat) (ss : StringStream) : Prop :=
  match skipFields sep j line with
  | some rest => ss = StringStream.mk0 rest
  | none => ss.good = false

/-- The keys and hours the loop of `do_consumers_work` passes to `+=`, in
order, up to the sentinel, an exception, a call that never returns or the end
of the queue. -/
def consumedEntries (from_simple_string : Str → Option Date) (sep : Char)
    (name_idx date_idx hours_idx : Nat) : LineVars → List Str → List (NameNMonth × Int)
  | _, [] => []
  | vars, line :: queue =>
    if line = POISON_PILL then []
    else
      match extractColumns sep name_idx date_idx hours_idx vars line with
      | none => []
      | some vars1 =>
        match from_simple_string vars1.date_str with
        | none => []
        | some date =>
          match stoi vars1.hours with
          | Except.error _ => []
          | Except.ok v =>
            ({ name := vars1.name, month := date.month, year := date.year }, v) ::
              consumedEntries from_simple_string sep name_idx date_idx hours_idx vars1 queue

/-- The statement `+=` of the loop, for a list of keys and hours in order. -/
def addEntries (m : HoursByNameNMonth) (es : List (NameNMonth × Int)) : HoursByNameNMonth :=
  es.foldl (fun acc e => addHours acc e.1 e.2) m

/-- The loop body of `parse_header` over a list of columns, the first of them
at index `idx`. -/
def scanCols : List Str → Nat → Nat × Nat × Nat → Nat × Nat × Nat
  | [], _, r => r
  | col :: cols, idx, r => scanCols cols (idx + 1) (assignColumn col idx r)

/-! ## The string stream and the fields of a line -/

theorem splitFields_ne_nil (sep : Char) (buf : List Char) : splitFields sep buf ≠ [] := by
  cases buf with
  | nil => simp [splitFields]
  | cons c cs =>
    unfold splitFields
    by_cases hc : c = sep
    · simp [hc]
    · simp only [hc, if_false]
      cases splitFields sep cs <;> simp

theorem splitFields_eq (sep : Char) (buf : List Char) :
    splitFields sep buf = (untilDelim sep buf).1 ::
      (match (untilDelim sep buf).2 with
        | none => []
        | some rest => splitFields sep rest) := by
  induction buf with
  | nil => simp [splitFields, untilDelim]
  | cons c cs ih =>
    by_cases hc : c = sep
    · simp [splitFields, untilDelim, hc]
    · simp only [splitFields, untilDelim, hc, if_false]
      rw [ih]

theorem skipFields_drop (sep : Char) :
    ∀ (k : Nat) (buf rest : List Char), skipFields sep k buf = some rest →
      (splitFields sep buf).drop k = splitFields sep rest
  | 0, buf, rest, h => by
    simp [skipFields] at h
    simp [h]
  | k + 1, buf, rest, h => by
    unfold skipFields at h
    rw [splitFields_eq]
    cases hu : (untilDelim sep buf).2 with
    | none => simp [hu] at h
    | some r =>
      simp only [hu] at h
      simpa using skipFields_drop sep k r rest h

theorem skipFields_none (sep : Char) :
    ∀ (k : Nat) (buf : List Char), skipFields sep k buf = none →
      (splitFields sep buf).length ≤ k
  | 0, buf, h => by simp [skipFields] at h
  | k + 1, buf, h => by
    unfold skipFields at h
    rw [splitFields_eq]
    cases hu : (untilDelim sep buf).2 with
    | none => simp
    | some r =>
      simp only [hu] at h
      have := skipFields_none sep k r h
      simpa using this

/-- Field `k` of a line is what `getline` reads after `k` fields were consumed. -/
theorem field_eq_skipFields (sep : Char) (k : Nat) (buf : List Char) :
    (splitFields sep buf)[k]? = (skipFields sep k buf).map (fun rest => (untilDelim sep rest).1) := by
  cases h : skipFields sep k buf with
  | none =>
    have := skipFields_none sep k buf h
    simp [List.getElem?_eq_none this]
  | some rest =>
    have hd := skipFields_drop sep k buf rest h
    have : (splitFields sep buf)[k]? = ((splitFields sep buf).drop k)[0]? := by simp
    rw [this, hd, splitFields_eq]
    simp

theorem skipFields_succ (sep : Char) :
    ∀ (k : Nat) (buf : List Char), skipFields sep (k + 1) buf =
      (skipFields sep k buf).bind (fun rest => (untilDelim sep rest).2)
  | 0, buf => by
    simp only [skipFields, Option.some_bind]
    cases (untilDelim sep buf).2 <;> rfl
  | k + 1, buf => by
    rw [skipFields]
    conv => rhs; rw [skipFields]
    cases hu : (untilDelim sep buf).2 with
    | none => simp
    | some r => simpa using skipFields_succ sep k r

theorem atField_zero (sep : Char) (line : Str) : AtField sep line 0 (StringStream.mk0 line) := by
  simp [AtField, skipFields]

theorem ignore_not_good (sep : Char) (ss : StringStream) (h : ss.good = false) :
    ∃ ss1, ss.ignore sep = some ss1 ∧ ss1.good = false := by
  unfold StringStream.ignore
  rw [h]
  simp [StringStream.good]

theorem getline_not_good (sep : Char) (ss : StringStream) (str : Str) (h : ss.good = false) :
    (ss.getline str sep).1.good = false ∧ (ss.getline str sep).2 = str := by
  unfold StringStream.getline
  rw [h]
  simp [StringStream.good]

theorem atField_ignore (sep : Char) (h7 : sep.toNat < 128) (line : Str) (j : Nat)
    (ss : StringStream) (h : AtField sep line j ss) :
    ∃ ss1, ss.ignore sep = some ss1 ∧ AtField sep line (j + 1) ss1 := by
  unfold AtField at h ⊢
  rw [skipFields_succ]
  cases hj : skipFields sep j line with
  | none =>
    simp only [hj] at h
    simpa using ignore_not_good sep ss h
  | some r =>
    simp only [hj] at h
    subst h
    simp only [Option.some_bind]
    cases hu : (untilDelim sep r).2 with
    | none => simp [StringStream.ignore, StringStream.mk0, StringStream.good, hu, h7]
    | some rest => simp [StringStream.ignore, StringStream.mk0, StringStream.good, hu, h7]

theorem atField_getline (sep : Char) (line : Str) (j : Nat) (ss : StringStream) (str : Str)
    (h : AtField sep line j ss) : AtField sep line (j + 1) (ss.getline str sep).1 := by
  unfold AtField at h ⊢
  rw [skipFields_succ]
  cases hj : skipFields sep j line with
  | none =>
    simp only [hj] at h
    simpa using (getline_not_good sep ss str h).1
  | some r =>
    simp only [hj] at h
    subst h
    simp only [Option.some_bind]
    cases hu : (untilDelim sep r).2 with
    | none => simp [StringStream.getline, StringStream.mk0, StringStream.good, hu]
    | some rest => simp [StringStream.getline, StringStream.mk0, StringStream.good, hu]

/-- What `getline` stores: field `j` of the line when there is one, and the old
value of the string when there is none. -/
theorem atField_getline_value (sep : Char) (line : Str) (j : Nat) (ss : StringStream)
    (str : Str) (h : AtField sep line j ss) :
    (ss.getline str sep).2 = ((splitFields sep line)[j]?).getD str := by
  unfold AtField at h
  rw [field_eq_skipFields]
  cases hj : skipFields sep j line with
  | none =>
    simp only [hj] at h
    simpa using (getline_not_good sep ss str h).2
  | some r =>
    simp only [hj] at h
    subst h
    cases hu : (untilDelim sep r).2 with
    | none => simp [StringStream.getline, StringStream.mk0, StringStream.good, hu]
    | some rest => simp [StringStream.getline, StringStream.mk0, StringStream.good, hu]

theorem atField_ignoreLoop (sep : Char) (h7 : sep.toNat < 128) (line : Str) :
    ∀ (k j : Nat) (ss : StringStream), AtField sep line j ss →
      ∃ ss1, ignoreLoop sep k ss = some ss1 ∧ AtField sep line (j + k) ss1
  | 0, j, ss, h => ⟨ss, rfl, by simpa using h⟩
  | k + 1, j, ss, h => by
    obtain ⟨s1, e1, a1⟩ := atField_ignore sep h7 line j ss h
    obtain ⟨s2, e2, a2⟩ := atField_ignoreLoop sep h7 line k (j + 1) s1 a1
    have e : j + 1 + k = j + (k + 1) := by omega
    rw [e] at a2
    refine ⟨s2, ?_, a2⟩
    rw [ignoreLoop, e1]
    exact e2

/-- The parsing step in closed form, for a 7-bit separator.  `name` is field
`name_idx`; `date_str` is the field at `max (name_idx + 1) date_idx`; `hours`
is the field at `max (max (name_idx + 1) date_idx + 1) hours_idx`; a string
whose field the line does not have keeps the value it had before the line. -/
theorem extractColumns_eq (sep : Char) (h7 : sep.toNat < 128)
    (name_idx date_idx hours_idx : Nat) (vars : LineVars) (line : Str) :
    extractColumns sep name_idx date_idx hours_idx vars line =
      some
        { name := ((splitFields sep line)[name_idx]?).getD vars.name,
          date_str := ((splitFields sep line)[max (name_idx + 1) date_idx]?).getD vars.date_str,
          hours :=
            ((splitFields sep line)[max (max (name_idx + 1) date_idx + 1) hours_idx]?).getD
              vars.hours } := by
  obtain ⟨s1, q1, h1⟩ := atField_ignoreLoop sep h7 line (name_idx - 0) 0 _ (atField_zero sep line)
  have e1 : 0 + (name_idx - 0) = name_idx := by omega
  rw [e1] at h1
  have h2 := atField_getline sep line _ _ vars.name h1
  obtain ⟨s3, q3, h3⟩ :=
    atField_ignoreLoop sep h7 line (date_idx - (max 0 name_idx + 1)) _ _ h2
  have e3 : name_idx + 1 + (date_idx - (max 0 name_idx + 1)) = max (name_idx + 1) date_idx := by
    omega
  rw [e3] at h3
  have h4 := atField_getline sep line _ _ vars.date_str h3
  obtain ⟨s5, q5, h5⟩ :=
    atField_ignoreLoop sep h7 line (hours_idx - (max (max 0 name_idx + 1) date_idx + 1)) _ _ h4
  have e5 : max (name_idx + 1) date_idx + 1 +
      (hours_idx - (max (max 0 name_idx + 1) date_idx + 1)) =
      max (max (name_idx + 1) date_idx + 1) hours_idx := by
    omega
  rw [e5] at h5
  have v1 := atField_getline_value sep line _ _ vars.name h1
  have v2 := atField_getline_value sep line _ _ vars.date_str h3
  have v3 := atField_getline_value sep line _ _ vars.hours h5
  unfold extractColumns
  simp only [q1, q3, q5, v1, v2, v3]

/-- For a 7-bit separator, indices in increasing order and a line that has
field `hours_idx`, the three strings are the three fields. -/
theorem extractColumns_ordered (sep : Char) (h7 : sep.toNat < 128)
    (name_idx date_idx hours_idx : Nat) (vars : LineVars)
    (line : Str) (name date_str hours : Str) (hnd : name_idx < date_idx)
    (hdh : date_idx < hours_idx)
    (hn : (splitFields sep line)[name_idx]? = some name)
    (hd : (splitFields sep line)[date_idx]? = some date_str)
    (hh : (splitFields sep line)[hours_idx]? = some hours) :
    extractColumns sep name_idx date_idx hours_idx vars line =
      some { name := name, date_str := date_str, hours := hours } := by
  rw [extractColumns_eq sep h7]
  have e1 : max (name_idx + 1) date_idx = date_idx := by omega
  have e2 : max (date_idx + 1) hours_idx = hours_idx := by omega
  rw [e1, e2, hn, hd, hh]
  rfl

/-! ## std::stoi on base-10 integers -/

theorem isdigit_not_isspace (c : Char) (h : isdigit c = true) : isspace c = false := by
  cases hs : isspace c with
  | false => rfl
  | true =>
    exfalso
    simp only [isspace, Bool.or_eq_true, decide_eq_true_eq] at hs
    rcases hs with ((((hs | hs) | hs) | hs) | hs) | hs <;> subst hs <;> revert h <;> decide

theorem takeWhile_all (p : Char → Bool) :
    ∀ (l : List Char), l.all p = true → l.takeWhile p = l
  | [], _ => rfl
  | c :: cs, h => by
    simp only [List.all_cons, Bool.and_eq_true] at h
    simp [List.takeWhile, h.1, takeWhile_all p cs h.2]

/-- A base-10 integer that an `int` holds is what `std::stoi` returns for it. -/
theorem stoi_of_decimalValue (s : Str) (v : Int) (h : decimalValue s = some v)
    (hr : INT_MIN ≤ v ∧ v ≤ INT_MAX) : stoi s = Except.ok v := by
  unfold decimalValue at h
  split at h
  · rename_i hd
    obtain ⟨hne, hall⟩ := hd
    have hdrop : s.dropWhile isspace = s := by
      cases s with
      | nil => rfl
      | cons c rest =>
        have hc : isspace c = false := by
          by_cases h1 : c = '-'
          · subst h1; decide
          · by_cases h2 : c = '+'
            · subst h2; decide
            · have : (stripSign (c :: rest)).2 = c :: rest := by simp [stripSign, h1, h2]
              rw [this] at hall
              simp only [List.all_cons, Bool.and_eq_true] at hall
              exact isdigit_not_isspace c hall.1
        simp [List.dropWhile, hc]
    have htake := takeWhile_all isdigit _ hall
    simp only [Option.some.injEq] at h
    unfold stoi
    simp only [hdrop, htake]
    have hemp : (stripSign s).2.isEmpty = false := by
      cases hx : (stripSign s).2 with
      | nil => exact absurd hx hne
      | cons a l => rfl
    simp only [hemp, h, hr]
    simp
  · exact absurd h (by simp)

/-! ## The aggregation map -/

theorem wrapInt_add_left (a b : Int) : wrapInt (wrapInt a + b) = wrapInt (a + b) := by
  unfold wrapInt
  omega

theorem wrapInt_of_range (a : Int) (h : INT_MIN ≤ a ∧ a ≤ INT_MAX) : wrapInt a = a := by
  unfold INT_MIN INT_MAX at h
  unfold wrapInt
  omega

theorem lookup_addHours (key K : NameNMonth) (v : Int) :
    ∀ (m : HoursByNameNMonth), lookup (addHours m key v) K =
      if key = K then some (wrapInt ((lookup m key).getD 0 + v)) else lookup m K
  | [] => by
    by_cases h : key = K <;> simp [addHours, lookup, h]
  | (k, x) :: m => by
    have ih := lookup_addHours key K v m
    by_cases hk : k = key
    · subst hk
      by_cases h : k = K <;> simp [addHours, lookup, h]
    · by_cases h : key = K
      · subst h
        simp only [addHours, lookup, hk, if_false, if_true] at ih ⊢
        exact ih
      · simp only [addHours, lookup, hk, h, if_false] at ih ⊢
        rw [ih]

theorem keys_addHours (key : NameNMonth) (v : Int) :
    ∀ (m : HoursByNameNMonth), (addHours m key v).map Prod.fst =
      if key ∈ m.map Prod.fst then m.map Prod.fst else m.map Prod.fst ++ [key]
  | [] => by simp [addHours]
  | (k, x) :: m => by
    have ih := keys_addHours key v m
    by_cases hk : k = key
    · subst hk
      simp [addHours]
    · have hk2 : ¬ key = k := fun e => hk e.symm
      by_cases hm : key ∈ m.map Prod.fst
      · simp only [hm, if_true] at ih
        simp only [addHours, hk, if_false, List.map_cons, ih, List.mem_cons, hm, or_true, if_true]
      · simp only [hm, if_false] at ih
        simp only [addHours, hk, if_false, List.map_cons, ih, List.mem_cons, hm, hk2, or_self,
          List.cons_append]

theorem nodup_addHours (key : NameNMonth) (v : Int) (m : HoursByNameNMonth)
    (h : (m.map Prod.fst).Nodup) : ((addHours m key v).map Prod.fst).Nodup := by
  rw [keys_addHours]
  by_cases hm : key ∈ m.map Prod.fst
  · simpa [hm] using h
  · simp only [hm, if_false]
    rw [List.nodup_append]
    refine ⟨h, List.nodup_singleton key, ?_⟩
    intro a ha hb
    simp only [List.mem_singleton] at hb
    subst hb
    exact hm ha

theorem mem_keys_addHours (key K : NameNMonth) (v : Int) (m : HoursByNameNMonth) :
    K ∈ (addHours m key v).map Prod.fst ↔ K ∈ m.map Prod.fst ∨ K = key := by
  rw [keys_addHours]
  by_cases hm : key ∈ m.map Prod.fst
  · simp only [hm, if_true]
    constructor
    · intro h; exact Or.inl h
    · intro h
      rcases h with h | h
      · exact h
      · subst h; exact hm
  · simp [hm]

theorem addEntries_cons (m : HoursByNameNMonth) (e : NameNMonth × Int)
    (es : List (NameNMonth × Int)) :
    addEntries m (e :: es) = addEntries (addHours m e.1 e.2) es := rfl

theorem sumFor_not_mem (K : NameNMonth) :
    ∀ (es : List (NameNMonth × Int)), K ∉ es.map Prod.fst → sumFor K es = 0
  | [], _ => rfl
  | (k, v) :: es, h => by
    simp only [List.map_cons, List.mem_cons, not_or] at h
    have hk : ¬ k = K := fun e => h.1 e.symm
    simp [sumFor, hk, sumFor_not_mem K es h.2]

/-- The value of a key after a list of `+=`: untouched when the list does not
name the key, else the old value (zero when absent) plus the sum, as an `int`. -/
theorem lookup_addEntries (K : NameNMonth) :
    ∀ (es : List (NameNMonth × Int)) (m : HoursByNameNMonth),
      lookup (addEntries m es) K =
        if K ∈ es.map Prod.fst then some (wrapInt ((lookup m K).getD 0 + sumFor K es))
        else lookup m K
  | [], m => by simp [addEntries]
  | (k, v) :: es, m => by
    rw [addEntries_cons, lookup_addEntries K es]
    simp only [lookup_addHours]
    by_cases hk : k = K
    · subst hk
      by_cases hm : k ∈ es.map Prod.fst
      · simp only [hm, if_true, Option.getD_some, List.map_cons, List.mem_cons, true_or, sumFor,
          wrapInt_add_left]
        congr 2
        omega
      · simp [hm, sumFor, sumFor_not_mem k es hm]
    · have hk2 : ¬ K = k := fun e => hk e.symm
      simp only [hk, if_false, List.map_cons, List.mem_cons, hk2, false_or, sumFor]

theorem nodup_addEntries :
    ∀ (es : List (NameNMonth × Int)) (m : HoursByNameNMonth),
      (m.map Prod.fst).Nodup → ((addEntries m es).map Prod.fst).Nodup
  | [], _, h => h
  | e :: es, m, h => by
    rw [addEntries_cons]
    exact nodup_addEntries es _ (nodup_addHours e.1 e.2 m h)

theorem mem_keys_addEntries (K : NameNMonth) :
    ∀ (es : List (NameNMonth × Int)) (m : HoursByNameNMonth),
      K ∈ (addEntries m es).map Prod.fst ↔ K ∈ m.map Prod.fst ∨ K ∈ es.map Prod.fst
  | [], m => by simp [addEntries]
  | e :: es, m => by
    rw [addEntries_cons, mem_keys_addEntries K es, mem_keys_addHours]
    simp only [List.map_cons, List.mem_cons]
    tauto

theorem lookup_of_mem :
    ∀ (m : HoursByNameNMonth), (m.map Prod.fst).Nodup →
      ∀ (K : NameNMonth) (v : Int), (K, v) ∈ m → lookup m K = some v
  | [], _, _, _, h => by simp at h
  | (k, x) :: m, hnd, K, v, h => by
    simp only [List.map_cons, List.nodup_cons] at hnd
    simp only [List.mem_cons, Prod.mk.injEq] at h
    rcases h with ⟨h1, h2⟩ | h
    · subst h1; subst h2
      simp [lookup]
    · have hne : ¬ k = K := by
        intro e
        subst e
        exact hnd.1 (List.mem_map_of_mem Prod.fst h)
      simp only [lookup, hne, if_false]
      exact lookup_of_mem m hnd.2 K v h

/-! ## The consumer loop -/

/-- The map a normal return leaves is the initial map after the `+=` of the
loop, in order. -/
theorem consumerLoop_entries (fss : Str → Option Date) (sep : Char) (n d h : Nat) :
    ∀ (queue : List Str) (vars : LineVars) (m m1 : HoursByNameNMonth) (rest : List Str),
      consumerLoop fss sep n d h vars m queue = Outcome.returned m1 rest →
        m1 = addEntries m (consumedEntries fss sep n d h vars queue)
  | [], vars, m, m1, rest, hr => by simp [consumerLoop] at hr
  | line :: queue, vars, m, m1, rest, hr => by
    unfold consumerLoop at hr
    unfold consumedEntries
    by_cases hp : line = POISON_PILL
    · simp only [hp, if_true, Outcome.returned.injEq] at hr
      simp [hp, addEntries, hr.1]
    · simp only [hp, if_false] at hr ⊢
      cases hx : extractColumns sep n d h vars line with
      | none => simp [hx] at hr
      | some vars1 =>
        simp only [hx] at hr ⊢
        cases hdate : fss vars1.date_str with
        | none => simp [hdate] at hr
        | some date =>
          simp only [hdate] at hr ⊢
          cases hst : stoi vars1.hours with
          | error e => simp [hst] at hr
          | ok v =>
            simp only [hst] at hr ⊢
            rw [addEntries_cons]
            exact consumerLoop_entries fss sep n d h queue _ _ m1 rest hr

/-- One turn of the loop on a valid line, for a 7-bit separator and indices in
increasing order. -/
theorem consumerLoop_valid_cons (fss : Str → Option Date) (sep : Char) (h7 : sep.toNat < 128)
    (n d h : Nat) (hnd : n < d) (hdh : d < h) (line : Str) (K : NameNMonth) (v : Int)
    (hp : line ≠ POISON_PILL) (he : specEntry fss sep n d h line = some (K, v))
    (vars : LineVars) (m : HoursByNameNMonth) (queue : List Str) :
    ∃ vars1, consumerLoop fss sep n d h vars m (line :: queue) =
      consumerLoop fss sep n d h vars1 (addHours m K v) queue := by
  unfold specEntry at he
  cases hn : (splitFields sep line)[n]? with
  | none => simp [hn] at he
  | some name =>
    cases hd : (splitFields sep line)[d]? with
    | none => simp [hn, hd] at he
    | some date_str =>
      cases hh : (splitFields sep line)[h]? with
      | none => simp [hn, hd, hh] at he
      | some hours =>
        simp only [hn, hd, hh] at he
        cases hdate : fss date_str with
        | none => simp [hdate] at he
        | some date =>
          cases hv : decimalValue hours with
          | none => simp [hdate, hv] at he
          | some w =>
            simp only [hdate, hv] at he
            split at he
            · rename_i hr
              simp only [Option.some.injEq, Prod.mk.injEq] at he
              obtain ⟨hK, hw⟩ := he
              subst hw
              have hx := extractColumns_ordered sep h7 n d h vars line name date_str hours hnd
                hdh hn hd hh
              have hs := stoi_of_decimalValue hours w hv hr
              refine ⟨{ name := name, date_str := date_str, hours := hours }, ?_⟩
              rw [consumerLoop]
              simp only [hp, if_false, hx, hdate, hs, hK]
            · exact absurd he (by simp)

/-- On valid lines followed by the sentinel the loop returns: the map holds the
`+=` of the lines' keys and hours, and the queue holds what follows the
sentinel. -/
theorem consumerLoop_valid (fss : Str → Option Date) (sep : Char) (h7 : sep.toNat < 128)
    (n d h : Nat) (hnd : n < d) (hdh : d < h) (ys : List Str) :
    ∀ (lines : List Str) (vars : LineVars) (m : HoursByNameNMonth),
      (∀ l ∈ lines, ValidLine fss sep n d h l) →
        consumerLoop fss sep n d h vars m (lines ++ POISON_PILL :: ys) =
          Outcome.returned (addEntries m (specEntries fss sep n d h lines)) ys
  | [], vars, m, _ => by
    simp [consumerLoop, specEntries, addEntries]
  | line :: lines, vars, m, hv => by
    have hl := hv line (List.mem_cons_self _ _)
    obtain ⟨hp, hs⟩ := hl
    obtain ⟨⟨K, v⟩, he⟩ := Option.isSome_iff_exists.mp hs
    obtain ⟨vars1, hstep⟩ :=
      consumerLoop_valid_cons fss sep h7 n d h hnd hdh line K v hp he vars m
        (lines ++ POISON_PILL :: ys)
    have ih := consumerLoop_valid fss sep h7 n d h hnd hdh ys lines vars1 (addHours m K v)
      (fun l hl => hv l (List.mem_cons_of_mem _ hl))
    rw [List.cons_append, hstep, ih]
    simp [specEntries, List.filterMap_cons, he, addEntries]

/-! ## Order of the lines and extra columns -/

theorem sumFor_perm (K : NameNMonth) (es es2 : List (NameNMonth × Int)) (hp : es.Perm es2) :
    sumFor K es = sumFor K es2 := by
  induction hp with
  | nil => rfl
  | cons x _ ih =>
    obtain ⟨k, v⟩ := x
    simp only [sumFor, ih]
  | swap x y l =>
    obtain ⟨k, v⟩ := x
    obtain ⟨k2, v2⟩ := y
    simp only [sumFor]
    by_cases h1 : k = K <;> by_cases h2 : k2 = K <;> simp only [h1, h2, if_true, if_false]
    all_goals omega
  | trans _ _ ih1 ih2 => rw [ih1, ih2]

theorem splitFields_append_sep (sep : Char) (extra : List Char) :
    ∀ (line : List Char),
      splitFields sep (line ++ sep :: extra) = splitFields sep line ++ splitFields sep extra
  | [] => by simp [splitFields]
  | c :: cs => by
    have ih := splitFields_append_sep sep extra cs
    by_cases hc : c = sep
    · simp [splitFields, hc, ih]
    · simp only [List.cons_append, splitFields, hc, if_false, List.append_eq]
      rw [ih]
      cases hs : splitFields sep cs with
      | nil => exact absurd hs (splitFields_ne_nil sep cs)
      | cons f fs => simp

theorem getElem?_append_some {α : Type} (l l2 : List α) (k : Nat) (a : α)
    (h : l[k]? = some a) : (l ++ l2)[k]? = some a := by
  have hlt : k < l.length := by
    by_contra hge
    have : l[k]? = none := List.getElem?_eq_none (by omega)
    rw [this] at h
    exact absurd h (by simp)
  rw [List.getElem?_append_left hlt]
  exact h

/-- Columns added after the last one do not change what a valid line stands for. -/
theorem specEntry_append (fss : Str → Option Date) (sep : Char) (n d h : Nat)
    (line extra : Str) (e : NameNMonth × Int) (he : specEntry fss sep n d h line = some e) :
    specEntry fss sep n d h (line ++ sep :: extra) = some e := by
  unfold specEntry at he ⊢
  rw [splitFields_append_sep]
  cases hn : (splitFields sep line)[n]? with
  | none => simp [hn] at he
  | some name =>
    cases hd : (splitFields sep line)[d]? with
    | none => simp [hn, hd] at he
    | some date_str =>
      cases hh : (splitFields sep line)[h]? with
      | none => simp [hn, hd, hh] at he
      | some hours =>
        rw [getElem?_append_some _ _ _ _ hn, getElem?_append_some _ _ _ _ hd,
          getElem?_append_some _ _ _ _ hh]
        simpa [hn, hd, hh] using he

theorem specEntries_extra_columns (fss : Str → Option Date) (sep : Char) (n d h : Nat)
    (lines lines2 : List Str)
    (hx : List.Forall₂ (fun l l2 => ∃ extra, l2 = l ++ sep :: extra) lines lines2)
    (hv : ∀ l ∈ lines, (specEntry fss sep n d h l).isSome = true) :
    specEntries fss sep n d h lines2 = specEntries fss sep n d h lines ∧
      ∀ l2 ∈ lines2, (specEntry fss sep n d h l2).isSome = true := by
  induction hx with
  | nil => simp [specEntries]
  | @cons a b l1 l2 hab _ ih =>
    obtain ⟨extra, hb⟩ := hab
    obtain ⟨e, he⟩ := Option.isSome_iff_exists.mp (hv a (List.mem_cons_self _ _))
    have he2 := specEntry_append fss sep n d h a extra e he
    have ih2 := ih (fun l hl => hv l (List.mem_cons_of_mem _ hl))
    subst hb
    constructor
    · have := ih2.1
      simp only [specEntries] at this ⊢
      simp [List.filterMap_cons, he, he2, this]
    · intro x hxm
      simp only [List.mem_cons] at hxm
      rcases hxm with hxm | hxm
      · subst hxm
        simp [he2]
      · exact ih2.2 x hxm

theorem mem_keys_specEntries (fss : Str → Option Date) (sep : Char) (n d h : Nat)
    (lines : List Str) (K : NameNMonth) :
    K ∈ (specEntries fss sep n d h lines).map Prod.fst ↔
      ∃ l ∈ lines, ∃ v, specEntry fss sep n d h l = some (K, v) := by
  simp only [specEntries, List.mem_map, List.mem_filterMap, Prod.exists]
  constructor
  · rintro ⟨k, v, ⟨l, hl, he⟩, hk⟩
    subst hk
    exact ⟨l, hl, v, he⟩
  · rintro ⟨l, hl, v, he⟩
    exact ⟨K, v, ⟨l, hl, he⟩, rfl⟩

/-! ## C1: the aggregation equals the reference sum -/

theorem runOps_conserve {T : Type} :
    ∀ (ops : List (QueueOp T)) (q q2 : ThreadSafeQueue T) (outs : List T),
      runOps ops q = some (q2, outs) →
        outs ++ q2 = q ++ pushedValues ops ∧ outs.length = popCount ops
  | [], q, q2, outs, h => by
    simp only [runOps, Option.some.injEq, Prod.mk.injEq] at h
    obtain ⟨h1, h2⟩ := h
    subst h1; subst h2
    simp [pushedValues, popCount]
  | QueueOp.push val :: ops, q, q2, outs, h => by
    simp only [runOps] at h
    have ih := runOps_conserve ops _ q2 outs h
    simp only [ThreadSafeQueue.push] at ih
    simpa [pushedValues, popCount] using ih
  | QueueOp.wait_and_pop :: ops, q, q2, outs, h => by
    cases q with
    | nil => simp [runOps, ThreadSafeQueue.wait_and_pop] at h
    | cons a q1 =>
      simp only [runOps, ThreadSafeQueue.wait_and_pop] at h
      cases hr : runOps ops q1 with
      | none => simp [hr] at h
      | some res =>
        obtain ⟨q3, outs3⟩ := res
        simp only [hr, Option.some.injEq, Prod.mk.injEq] at h
        obtain ⟨h1, h2⟩ := h
        subst h1; subst h2
        have ih := runOps_conserve ops q1 q3 outs3 hr
        simp [pushedValues, popCount, ih.1, ih.2]

theorem runOps_pushes {T : Type} (rest : List (QueueOp T)) :
    ∀ (items : List T) (q : ThreadSafeQueue T),
      runOps (items.map QueueOp.push ++ rest) q = runOps rest (q ++ items)
  | [], q => by simp
  | a :: items, q => by
    simp only [List.map_cons, List.cons_append, runOps, ThreadSafeQueue.push, List.append_eq]
    rw [runOps_pushes rest items]
    simp

theorem runOps_pops {T : Type} :
    ∀ (q : ThreadSafeQueue T),
      runOps (List.replicate q.length (QueueOp.wait_and_pop : QueueOp T)) q = some ([], q)
  | [] => by simp [runOps]
  | a :: q => by
    simp only [List.length_cons, List.replicate_succ, runOps, ThreadSafeQueue.wait_and_pop]
    rw [runOps_pops q]

/-- C2. Calls run one at a time on a new queue, each pop starting on a
non-empty queue: the pops return, in order, the first pushed values, as many as
there are pops (so the k-th pop returns the k-th pushed value), and the queue is
left with the other pushed values in order; nothing is lost or repeated.
Pushing `items`, then the sentinel, then popping `items.length + 1` times
returns `items` followed by the sentinel and leaves the queue empty. -/
theorem queue_fifo_lossless {T : Type} (ops : List (QueueOp T)) (q : ThreadSafeQueue T)
    (outs : List T) (h : runOps ops [] = some (q, outs)) :
    outs = (pushedValues ops).take (popCount ops) ∧
      q = (pushedValues ops).drop (popCount ops) ∧
      outs ++ q = pushedValues ops ∧
      (∀ k, k < popCount ops → outs[k]? = (pushedValues ops)[k]?) ∧
      ∀ (items : List T) (sentinel : T),
        runOps (items.map QueueOp.push ++ [QueueOp.push sentinel] ++
            List.replicate (items.length + 1) QueueOp.wait_and_pop) [] =
          some ([], items ++ [sentinel]) := by
  have hc := runOps_conserve ops [] q outs h
  simp only [List.nil_append] at hc
  obtain ⟨h1, h2⟩ := hc
  have ht : outs = (pushedValues ops).take (popCount ops) := by
    rw [← h1, ← h2]
    simp
  have hd : q = (pushedValues ops).drop (popCount ops) := by
    rw [← h1, ← h2]
    simp
  refine ⟨ht, hd, h1, ?_, ?_⟩
  · intro k hk
    rw [ht, List.getElem?_take_of_lt hk]
  · intro items sentinel
    rw [List.append_assoc, runOps_pushes, List.nil_append]
    change runOps (QueueOp.push sentinel :: _) items = _
    simp only [runOps, ThreadSafeQueue.push]
    have := runOps_pops (items ++ [sentinel])
    simpa using this

/-- C2 at two pushes followed by one pop. -/
theorem queue_fifo_lossless_witness :
    runOps [QueueOp.push 1, QueueOp.push 2, QueueOp.wait_and_pop] ([] : ThreadSafeQueue Nat) =
        some ([2], [1]) ∧
      [1] = (pushedValues [QueueOp.push 1, QueueOp.push 2,
        (QueueOp.wait_and_pop : QueueOp Nat)]).take 1 :=
  ⟨rfl, (queue_fifo_lossless [QueueOp.push 1, QueueOp.push 2, QueueOp.wait_and_pop] [2] [1]
    rfl).1⟩

/-! ## C4: what the producer pushes -/

theorem producerLoop_eq (banned_lines : List Str) :
    ∀ (lines : List Str) (st : ThreadSafeQueue Str × List Str),
      producerLoop banned_lines lines st =
        (st.1 ++ lines.filter (fun l => decide (l ∉ banned_lines)),
          st.2 ++ lines.filter (fun l => decide (l ∈ banned_lines)))
  | [], st => by simp [producerLoop]
  | line :: rest, st => by
    by_cases hb : line ∈ banned_lines
    · simp [producerLoop, hb, producerLoop_eq banned_lines rest]
    · simp [producerLoop, hb, producerLoop_eq banned_lines rest, ThreadSafeQueue.push]

theorem producer_eq (banned_lines : List Str) (lines : List Str) :
    producer banned_lines lines =
      (lines.filter (fun l => decide (l ∉ banned_lines)) ++ [POISON_PILL],
        lines.filter (fun l => decide (l ∈ banned_lines))) := by
  simp [producer, producerLoop_eq, ThreadSafeQueue.push]

/-- C4. For every set of banned lines and every list of data lines, the items
pushed are the data lines that are not banned, in file order, then the sentinel
as the last item (the sentinel alone when no line is accepted); each banned
line of the file gets a warning; no banned line is among the lines pushed; and
a banned line in the file, whatever its content, leaves the outcome of the run
as it is without that line. -/
theorem producer_output (banned_lines : List Str) (lines : List Str) :
    (producer banned_lines lines).1 =
        lines.filter (fun l => decide (l ∉ banned_lines)) ++ [POISON_PILL] ∧
      (producer banned_lines lines).2 = lines.filter (fun l => decide (l ∈ banned_lines)) ∧
      ((∀ l ∈ lines, l ∈ banned_lines) → (producer banned_lines lines).1 = [POISON_PILL]) ∧
      (∀ l ∈ banned_lines, l ∉ lines.filter (fun l => decide (l ∉ banned_lines))) ∧
      (∀ (fss : Str → Option Date) (sep : Char) (header : Str) (before after : List Str)
          (l : Str), l ∈ banned_lines → lines = before ++ l :: after →
        main fss banned_lines sep (header :: lines) =
          main fss banned_lines sep (header :: (before ++ after))) := by
  refine ⟨by rw [producer_eq], by rw [producer_eq], ?_, ?_, ?_⟩
  · intro hall
    rw [producer_eq]
    have : lines.filter (fun l => decide (l ∉ banned_lines)) = [] := by
      rw [List.filter_eq_nil_iff]
      intro a ha
      simpa using hall a ha
    rw [this]
    rfl
  · intro l hl hm
    simpa [hl] using (List.mem_filter.mp hm).2
  · intro fss sep header before after l hl hlines
    subst hlines
    simp [main, producer_eq, List.filter_append, List.filter_cons, hl]

/-! ## C10: the consumer stops at the first sentinel -/

theorem consumerLoop_threw_after (fss : Str → Option Date) (sep : Char) (h7 : sep.toNat < 128)
    (n d h : Nat) (rest : List Str)
    (hrest : ∀ (vars : LineVars) (m : HoursByNameNMonth),
      ∃ e, consumerLoop fss sep n d h vars m rest = Outcome.threw e) :
    ∀ (xs : List Str), (∀ x ∈ xs, x ≠ POISON_PILL) →
      ∀ (vars : LineVars) (m : HoursByNameNMonth),
        ∃ e, consumerLoop fss sep n d h vars m (xs ++ rest) = Outcome.threw e
  | [], _, vars, m => by simpa using hrest vars m
  | x :: xs, hx, vars, m => by
    have hp : x ≠ POISON_PILL := hx x (List.mem_cons_self _ _)
    have ih := consumerLoop_threw_after fss sep h7 n d h rest hrest xs
      (fun y hy => hx y (List.mem_cons_of_mem _ hy))
    rw [List.cons_append, consumerLoop]
    simp only [hp, if_false, extractColumns_eq sep h7]
    cases hdate : fss (((splitFields sep x)[max (n + 1) d]?).getD vars.date_str) with
    | none => exact ⟨_, rfl⟩
    | some date =>
      cases hst : stoi (((splitFields sep x)[max (max (n + 1) d + 1) h]?).getD vars.hours) with
      | error e => exact ⟨e, rfl⟩
      | ok v => exact ih _ _

/-- C5, the hours field `4abc` is not a base-10 integer, and the run returns
with four hours for Alice.  With the separator byte 233 and the indices 1, 2, 3
a line with the hours field `abc` ends the run in no exception: the first
`ignore` never returns. -/
theorem malformed_hours_counterexample :
    (decimalValue (String.toList "4abc") = none ∧
      do_consumers_work isoDate [String.toList "Alice;2023-03-15;4abc", POISON_PILL] ';' 0 1 2
          [] =
        Outcome.returned [({ name := String.toList "Alice", month := 3, year := 2023 }, 4)]
          []) ∧
    do_consumers_work isoDate
        [List.intercalate [Char.ofNat 233]
          [String.toList "x", String.toList "Alice", String.toList "2023-03-15",
            String.toList "abc"], POISON_PILL]
        (Char.ofNat 233) 1 2 3 [] = Outcome.ignore_hangs := by
  decide

/-- C5 as amended. For a separator that is a 7-bit character and indices
`name_idx < date_idx < hours_idx`: when a line that is not the sentinel text,
and that no sentinel text precedes, has a hours field that `std::stoi` rejects
(no digit after the optional white space and sign, or a value no `int` holds),
the consumer ends in an exception, whatever lines come before and after it.
The line `Alice;2023-03-15;abc` alone ends it in `invalid_argument`. -/
theorem malformed_hours_fatal (fss : Str → Option Date) (sep : Char)
    (name_idx date_idx hours_idx : Nat) (xs ys : List Str) (bad hours : Str) (e : Exception)
    (h7 : sep.toNat < 128) (hnd : name_idx < date_idx) (hdh : date_idx < hours_idx)
    (hx : ∀ x ∈ xs, x ≠ POISON_PILL) (hb : bad ≠ POISON_PILL)
    (hf : (splitFields sep bad)[hours_idx]? = some hours)
    (hs : stoi hours = Except.error e) :
    (∃ e2, do_consumers_work fss (xs ++ bad :: ys) sep name_idx date_idx hours_idx [] =
        Outcome.threw e2) ∧
      (fss (String.toList "2023-03-15") = some { year := 2023, month := 3, day := 15 } →
        do_consumers_work fss [String.toList "Alice;2023-03-15;abc", POISON_PILL] ';' 0 1 2 [] =
          Outcome.threw Exception.invalid_argument) := by
  constructor
  · apply consumerLoop_threw_after fss sep h7 name_idx date_idx hours_idx (bad :: ys) _ xs hx
    intro vars m
    have e1 : max (max (name_idx + 1) date_idx + 1) hours_idx = hours_idx := by omega
    rw [consumerLoop]
    simp only [hb, if_false, extractColumns_eq sep h7, e1, hf, Option.getD_some, hs]
    cases fss (((splitFields sep bad)[max (name_idx + 1) date_idx]?).getD vars.date_str) with
    | none => exact ⟨_, rfl⟩
    | some date => exact ⟨e, rfl⟩
  · intro h1
    have x1 : extractColumns ';' 0 1 2 { name := [], date_str := [], hours := [] }
        (String.toList "Alice;2023-03-15;abc") =
        some { name := String.toList "Alice", date_str := String.toList "2023-03-15",
               hours := String.toList "abc" } := by decide
    have s1 : stoi (String.toList "abc") = Except.error Exception.invalid_argument := by rfl
    have p1 : String.toList "Alice;2023-03-15;abc" ≠ POISON_PILL := by decide
    simp only [do_consumers_work, consumerLoop, p1, x1, h1, s1, if_false]

/-- C5 as amended, at a valid line followed by the line `Alice;2023-03-15;abc`. -/
theorem malformed_hours_fatal_witness :
    ((Char.toNat ';' < 128 ∧ 0 < 1 ∧ 1 < 2) ∧
      (∀ x ∈ [String.toList "Bob;2023-03-15;4"], x ≠ POISON_PILL) ∧
      String.toList "Alice;2023-03-15;abc" ≠ POISON_PILL ∧
      (splitFields ';' (String.toList "Alice;2023-03-15;abc"))[2]? = some (String.toList "abc") ∧
      stoi (String.toList "abc") = Except.error Exception.invalid_argument) ∧
    ∃ e2, do_consumers_work isoDate
        ([String.toList "Bob;2023-03-15;4"] ++
          String.toList "Alice;2023-03-15;abc" :: [POISON_PILL]) ';' 0 1 2 [] =
      Outcome.threw e2 :=
  ⟨⟨⟨by decide, by decide, by decide⟩, by decide, by decide, by decide, rfl⟩,
    (malformed_hours_fatal isoDate ';' 0 1 2 [String.toList "Bob;2023-03-15;4"] [POISON_PILL]
      (String.toList "Alice;2023-03-15;abc") (String.toList "abc") Exception.invalid_argument
      (by decide) (by decide) (by decide) (by decide) (by decide) (by decide) rfl).1⟩

/-! ## C6: a line with missing columns -/

/-- C6, after a valid line the short line `Bob;2023-04-20` is not fatal: the
run returns, and Bob gets the four hours left in `hours` by the line before.
With the separator byte 233 and the indices 1, 2, 3 the short first line of two
fields ends the run in no exception: the first `ignore` never returns. -/
theorem short_line_counterexample :
    ((splitFields ';' (String.toList "Bob;2023-04-20")).length ≤ max 0 (max 1 2) ∧
      do_consumers_work isoDate
          [String.toList "Alice;2023-03-15;4", String.toList "Bob;2023-04-20", POISON_PILL]
          ';' 0 1 2 [] =
        Outcome.returned
          [({ name := String.toList "Alice", month := 3, year := 2023 }, 4),
            ({ name := String.toList "Bob", month := 4, year := 2023 }, 4)] []) ∧
    ((splitFields (Char.ofNat 233)
        (List.intercalate [Char.ofNat 233] [String.toList "a", String.toList "b"])).length ≤
        max 1 (max 2 3) ∧
      do_consumers_work isoDate
          [List.intercalate [Char.ofNat 233] [String.toList "a", String.toList "b"], POISON_PILL]
          (Char.ofNat 233) 1 2 3 [] = Outcome.ignore_hangs) := by
  decide

/-- C6 as amended. For every separator that is a 7-bit character and all
indices, a line with too few fields for the largest index leaves the string
`hours` as it was before the line; when it is the first line of the stream (and
not the sentinel text) `hours` is still empty and the consumer ends in an
exception. -/
theorem short_first_line_fatal (fss : Str → Option Date) (sep : Char)
    (name_idx date_idx hours_idx : Nat) (line : Str) (ys : List Str) (m : HoursByNameNMonth)
    (h7 : sep.toNat < 128)
    (hshort : (splitFields sep line).length ≤ max name_idx (max date_idx hours_idx))
    (hp : line ≠ POISON_PILL) :
    (∀ vars : LineVars, ∃ vars1,
        extractColumns sep name_idx date_idx hours_idx vars line = some vars1 ∧
          vars1.hours = vars.hours) ∧
      ∃ e, do_consumers_work fss (line :: ys) sep name_idx date_idx hours_idx m =
        Outcome.threw e := by
  have hnone : (splitFields sep line)[max (max (name_idx + 1) date_idx + 1) hours_idx]? =
      none := List.getElem?_eq_none (by omega)
  constructor
  · intro vars
    refine ⟨_, extractColumns_eq sep h7 name_idx date_idx hours_idx vars line, ?_⟩
    simp only [hnone, Option.getD_none]
  · have s0 : stoi [] = Except.error Exception.invalid_argument := by rfl
    rw [do_consumers_work, consumerLoop]
    simp only [hp, if_false, extractColumns_eq sep h7, hnone, Option.getD_none, s0]
    cases fss (((splitFields sep line)[max (name_idx + 1) date_idx]?).getD []) with
    | none => exact ⟨_, rfl⟩
    | some date => exact ⟨_, rfl⟩

/-- C6 as amended, at the first line `Bob;2023-04-20`. -/
theorem short_first_line_fatal_witness :
    (Char.toNat ';' < 128 ∧
      (splitFields ';' (String.toList "Bob;2023-04-20")).length ≤ max 0 (max 1 2) ∧
      String.toList "Bob;2023-04-20" ≠ POISON_PILL) ∧
    ∃ e, do_consumers_work isoDate (String.toList "Bob;2023-04-20" :: [POISON_PILL]) ';' 0 1 2
        [] = Outcome.threw e :=
  ⟨⟨by decide, by decide, by decide⟩,
    (short_first_line_fatal isoDate ';' 0 1 2 (String.toList "Bob;2023-04-20") [POISON_PILL] []
      (by decide) (by decide) (by decide)).2⟩

/-! ## C7: the columns the parsing step extracts -/

/-- C7, with the distinct indices 1, 0, 2 and the line `a;b;c` of three fields,
`date_str` is `c` and not the field `a` at index 0, and `hours` stays empty.
With the separator byte 233, the indices 1, 2, 3 and a line of four fields the
parsing step sets nothing: the first `ignore` never returns. -/
theorem column_order_counterexample :
    ((splitFields ';' (String.toList "a;b;c")).length = 3 ∧
      (splitFields ';' (String.toList "a;b;c"))[0]? = some (String.toList "a") ∧
      extractColumns ';' 1 0 2 { name := [], date_str := [], hours := [] }
          (String.toList "a;b;c") =
        some { name := String.toList "b", date_str := String.toList "c", hours := [] }) ∧
    ((splitFields (Char.ofNat 233)
        (List.intercalate [Char.ofNat 233]
          [String.toList "a", String.toList "b", String.toList "c", String.toList "d"])).length =
        4 ∧
      extractColumns (Char.ofNat 233) 1 2 3 { name := [], date_str := [], hours := [] }
          (List.intercalate [Char.ofNat 233]
            [String.toList "a", String.toList "b", String.toList "c", String.toList "d"]) =
        none) := by
  decide

/-- C7 as amended. For every separator that is a 7-bit character, indices
`name_idx < date_idx < hours_idx` and line with more fields than `hours_idx`,
the parsing step sets `name`, `date_str` and `hours` to the fields at the three
indices, whatever the strings held before.  For indices in any order the fields
read are those at `name_idx`, `max (name_idx + 1) date_idx` and
`max (max (name_idx + 1) date_idx + 1) hours_idx`. -/
theorem column_extraction_ordered (sep : Char) (name_idx date_idx hours_idx : Nat)
    (vars : LineVars) (line : Str) (h7 : sep.toNat < 128) (hnd : name_idx < date_idx)
    (hdh : date_idx < hours_idx) (hlen : hours_idx < (splitFields sep line).length) :
    (∃ vars1, extractColumns sep name_idx date_idx hours_idx vars line = some vars1 ∧
        (splitFields sep line)[name_idx]? = some vars1.name ∧
        (splitFields sep line)[date_idx]? = some vars1.date_str ∧
        (splitFields sep line)[hours_idx]? = some vars1.hours) ∧
      ∀ (n d h : Nat) (l : Str),
        max (max (n + 1) d + 1) h < (splitFields sep l).length →
          ∃ vars1, extractColumns sep n d h vars l = some vars1 ∧
            (splitFields sep l)[n]? = some vars1.name ∧
            (splitFields sep l)[max (n + 1) d]? = some vars1.date_str ∧
            (splitFields sep l)[max (max (n + 1) d + 1) h]? = some vars1.hours := by
  have general : ∀ (n d h : Nat) (l : Str),
      max (max (n + 1) d + 1) h < (splitFields sep l).length →
        ∃ vars1, extractColumns sep n d h vars l = some vars1 ∧
          (splitFields sep l)[n]? = some vars1.name ∧
          (splitFields sep l)[max (n + 1) d]? = some vars1.date_str ∧
          (splitFields sep l)[max (max (n + 1) d + 1) h]? = some vars1.hours := by
    intro n d h l hl
    refine ⟨_, extractColumns_eq sep h7 n d h vars l, ?_⟩
    have h1 : n < (splitFields sep l).length := by omega
    have h2 : max (n + 1) d < (splitFields sep l).length := by omega
    simp only [List.getElem?_eq_getElem h1, List.getElem?_eq_getElem h2,
      List.getElem?_eq_getElem hl, Option.getD_some, and_self]
  have e1 : max (name_idx + 1) date_idx = date_idx := by omega
  have e2 : max (max (name_idx + 1) date_idx + 1) hours_idx = hours_idx := by omega
  have g := general name_idx date_idx hours_idx line (by rw [e2]; exact hlen)
  rw [e2, e1] at g
  exact ⟨g, general⟩

/-- C7 as amended, at the indices 0, 1, 2 and the line `a;b;c`. -/
theorem column_extraction_ordered_witness :
    (Char.toNat ';' < 128 ∧ 0 < 1 ∧ 1 < 2 ∧
      2 < (splitFields ';' (String.toList "a;b;c")).length) ∧
    ∃ vars1, extractColumns ';' 0 1 2 { name := [], date_str := [], hours := [] }
        (String.toList "a;b;c") = some vars1 ∧
      (splitFields ';' (String.toList "a;b;c"))[1]? = some vars1.date_str :=
  ⟨⟨by decide, by decide, by decide, by decide⟩,
    (column_extraction_ordered ';' 0 1 2 { name := [], date_str := [], hours := [] }
      (String.toList "a;b;c") (by decide) (by decide) (by decide) (by decide)).1.imp
      (fun _ hv => ⟨hv.1, hv.2.2.1⟩)⟩

/-! ## C8: the header -/

theorem untilDelim_rest_length (sep : Char) :
    ∀ (buf rest : List Char), (untilDelim sep buf).2 = some rest → rest.length < buf.length
  | [], rest, h => by simp [untilDelim] at h
  | c :: cs, rest, h => by
    unfold untilDelim at h
    by_cases hc : c = sep
    · simp only [hc, if_true, Option.some.injEq] at h
      subst h
      simp
    · simp only [hc, if_false] at h
      have := untilDelim_rest_length sep cs rest h
      simp only [List.length_cons]
      omega

/-- The loop of `parse_header` visits the fields of the header in order (an
empty last field ends it, and would assign nothing). -/
theorem headerLoop_eq_scanCols (sep : Char) :
    ∀ (n : Nat) (buf : List Char), buf.length ≤ n → ∀ (col : Str) (idx : Nat)
      (r : Nat × Nat × Nat),
      headerLoop sep (StringStream.mk0 buf) col idx r = scanCols (splitFields sep buf) idx r := by
  intro n
  induction n with
  | zero =>
    intro buf hlen col idx r
    have hb : buf = [] := List.eq_nil_of_length_eq_zero (by omega)
    subst hb
    rw [headerLoop]
    have g : (StringStream.mk0 []).getline col sep =
        ({ buf := [], eofbit := true, failbit := true }, []) := by rfl
    rw [g]
    rfl
  | succ n ih =>
    intro buf hlen col idx r
    cases hu : (untilDelim sep buf).2 with
    | some rest =>
      have g : (StringStream.mk0 buf).getline col sep =
          (StringStream.mk0 rest, (untilDelim sep buf).1) := by
        simp [StringStream.getline, StringStream.mk0, StringStream.good, hu]
      have hl := untilDelim_rest_length sep buf rest hu
      rw [headerLoop, g]
      have hfb : (StringStream.mk0 rest).failbit = false := rfl
      simp only [hfb, Bool.false_eq_true, if_false]
      rw [ih rest (by omega), splitFields_eq sep buf, hu]
      rfl
    | none =>
      have g : (StringStream.mk0 buf).getline col sep =
          ({ buf := [], eofbit := true, failbit := (untilDelim sep buf).1.isEmpty },
            (untilDelim sep buf).1) := by
        simp [StringStream.getline, StringStream.mk0, StringStream.good, hu]
      rw [headerLoop, g, splitFields_eq sep buf, hu]
      cases hf : (untilDelim sep buf).1 with
      | nil =>
        simp only [List.isEmpty_nil, if_true]
        rfl
      | cons a f =>
        simp only [List.isEmpty_cons, Bool.false_eq_true, if_false]
        rw [headerLoop]
        rfl

theorem scanCols_proj (p : Nat × Nat × Nat → Nat) (t : Str)
    (hskip : ∀ (col : Str) (idx : Nat) (r : Nat × Nat × Nat),
      col ≠ t → p (assignColumn col idx r) = p r)
    (hset : ∀ (idx : Nat) (r : Nat × Nat × Nat), p (assignColumn t idx r) = idx) :
    ∀ (cols : List Str) (idx : Nat) (r : Nat × Nat × Nat),
      (t ∉ cols → p (scanCols cols idx r) = p r) ∧
      (∀ i, cols[i]? = some t → cols.count t ≤ 1 → p (scanCols cols idx r) = idx + i)
  | [], idx, r => by simp [scanCols]
  | c :: cs, idx, r => by
    have ih := scanCols_proj p t hskip hset cs (idx + 1) (assignColumn c idx r)
    constructor
    · intro hn
      simp only [List.mem_cons, not_or] at hn
      rw [scanCols, ih.1 hn.2, hskip c idx r (fun e => hn.1 e.symm)]
    · intro i hi hc
      cases i with
      | zero =>
        simp only [List.getElem?_cons_zero, Option.some.injEq] at hi
        subst hi
        have hz : cs.count c = 0 := by
          simp only [List.count_cons_self] at hc
          omega
        rw [scanCols, ih.1 (List.count_eq_zero.mp hz), hset]
        rfl
      | succ j =>
        simp only [List.getElem?_cons_succ] at hi
        have hc2 : cs.count t ≤ 1 := by
          have := List.count_le_count_cons t c cs
          omega
        rw [scanCols, ih.2 j hi hc2]
        omega

/-- C8. For every separator and header in which each of the three column names
is a field at most once, each index `parse_header` returns is the position of
the field equal to the name, and 0 when no field is; the header
`Name;date;logged hours` with `;` gives (0, 1, 2). -/
theorem parse_header_resolves (sep : Char) (header : Str)
    (h1 : (splitFields sep header).count (String.toList "Name") ≤ 1)
    (h2 : (splitFields sep header).count (String.toList "date") ≤ 1)
    (h3 : (splitFields sep header).count (String.toList "logged hours") ≤ 1) :
    ((∀ i, (splitFields sep header)[i]? = some (String.toList "Name") →
          (parse_header header sep).1 = i) ∧
        (String.toList "Name" ∉ splitFields sep header → (parse_header header sep).1 = 0)) ∧
      ((∀ i, (splitFields sep header)[i]? = some (String.toList "date") →
          (parse_header header sep).2.1 = i) ∧
        (String.toList "date" ∉ splitFields sep header → (parse_header header sep).2.1 = 0)) ∧
      ((∀ i, (splitFields sep header)[i]? = some (String.toList "logged hours") →
          (parse_header header sep).2.2 = i) ∧
        (String.toList "logged hours" ∉ splitFields sep header →
          (parse_header header sep).2.2 = 0)) ∧
      parse_header (String.toList "Name;date;logged hours") ';' = (0, 1, 2) := by
  have hp : ∀ hd : Str, parse_header hd sep = scanCols (splitFields sep hd) 0 (0, 0, 0) :=
    fun hd => headerLoop_eq_scanCols sep hd.length hd (Nat.le_refl _) [] 0 (0, 0, 0)
  have nd : String.toList "date" ≠ String.toList "Name" := by decide
  have nh : String.toList "logged hours" ≠ String.toList "Name" := by decide
  have dh : String.toList "logged hours" ≠ String.toList "date" := by decide
  have pn := scanCols_proj (fun r => r.1) (String.toList "Name")
    (by
      intro col idx r hc
      simp only [assignColumn, hc, if_false]
      split
      · rfl
      · split <;> rfl)
    (by intro idx r; simp [assignColumn])
    (splitFields sep header) 0 (0, 0, 0)
  have pd := scanCols_proj (fun r => r.2.1) (String.toList "date")
    (by
      intro col idx r hc
      simp only [assignColumn, hc, if_false]
      split
      · rfl
      · split <;> rfl)
    (by intro idx r; simp [assignColumn, nd])
    (splitFields sep header) 0 (0, 0, 0)
  have ph := scanCols_proj (fun r => r.2.2) (String.toList "logged hours")
    (by
      intro col idx r hc
      simp only [assignColumn, hc, if_false]
      split
      · rfl
      · split <;> rfl)
    (by intro idx r; simp [assignColumn, nh, dh])
    (splitFields sep header) 0 (0, 0, 0)
  rw [hp header]
  refine ⟨⟨fun i hi => ?_, fun hn => pn.1 hn⟩, ⟨fun i hi => ?_, fun hn => pd.1 hn⟩,
    ⟨fun i hi => ?_, fun hn => ph.1 hn⟩, ?_⟩
  · simpa using pn.2 i hi h1
  · simpa using pd.2 i hi h2
  · simpa using ph.2 i hi h3
  · have hx : parse_header (String.toList "Name;date;logged hours") ';' =
        scanCols (splitFields ';' (String.toList "Name;date;logged hours")) 0 (0, 0, 0) :=
      headerLoop_eq_scanCols ';' _ _ (Nat.le_refl _) [] 0 (0, 0, 0)
    rw [hx]
    decide

/-- C8 at the header `Name;date;logged hours`. -/
theorem parse_header_resolves_witness :
    ((splitFields ';' (String.toList "Name;date;logged hours")).count (String.toList "Name") ≤ 1 ∧
      (splitFields ';' (String.toList "Name;date;logged hours")).count (String.toList "date") ≤ 1 ∧
      (splitFields ';' (String.toList "Name;date;logged hours")).count
        (String.toList "logged hours") ≤ 1) ∧
    parse_header (String.toList "Name;date;logged hours") ';' = (0, 1, 2) :=
  ⟨⟨by decide, by decide, by decide⟩,
    (parse_header_resolves ';' (String.toList "Name;date;logged hours") (by decide) (by decide)
      (by decide)).2.2.2⟩

/-! ## C9: the sign of the stored values -/

theorem sumFor_nonneg (K : NameNMonth) :
    ∀ (es : List (NameNMonth × Int)), (∀ e ∈ es, e.1 = K → 0 ≤ e.2) → 0 ≤ sumFor K es
  | [], _ => by simp [sumFor]
  | (k, v) :: es, h => by
    have ih := sumFor_nonneg K es (fun e he => h e (List.mem_cons_of_mem _ he))
    by_cases hk : k = K
    · have hv : 0 ≤ v := h (k, v) (List.mem_cons_self _ _) hk
      simp only [sumFor, hk, if_true]
      omega
    · simp only [sumFor, hk, if_false]
      exact ih

/-- C9, the line `Alice;2023-03-15;-5` is accumulated, and the value stored
for Alice is negative. -/
theorem negative_hours_counterexample :
    do_consumers_work isoDate [String.toList "Alice;2023-03-15;-5", POISON_PILL] ';' 0 1 2 [] =
        Outcome.returned [({ name := String.toList "Alice", month := 3, year := 2023 }, -5)]
          [] ∧
      (-5 : Int) < 0 := by
  decide

/-- C9 as amended. When `do_consumers_work` returns, every value of the map is
the sum, as an `int`, of the hours the loop added for its key, negative hours
included; the value is non-negative when none of these hours is negative and
their sum is at most `INT_MAX`. -/
theorem stored_value_is_sum (fss : Str → Option Date) (sep : Char)
    (name_idx date_idx hours_idx : Nat) (queue rest : List Str) (m : HoursByNameNMonth)
    (hr : do_consumers_work fss queue sep name_idx date_idx hours_idx [] =
      Outcome.returned m rest) :
    ∀ K v, (K, v) ∈ m →
      v = wrapInt (sumFor K (consumedEntries fss sep name_idx date_idx hours_idx
        { name := [], date_str := [], hours := [] } queue)) ∧
      ((∀ e ∈ consumedEntries fss sep name_idx date_idx hours_idx
          { name := [], date_str := [], hours := [] } queue, e.1 = K → 0 ≤ e.2) →
        sumFor K (consumedEntries fss sep name_idx date_idx hours_idx
          { name := [], date_str := [], hours := [] } queue) ≤ INT_MAX →
        0 ≤ v) := by
  intro K v hm
  have hm1 := consumerLoop_entries fss sep name_idx date_idx hours_idx queue _ [] m rest hr
  have hnd : (m.map Prod.fst).Nodup := by
    rw [hm1]
    exact nodup_addEntries _ [] (by simp)
  have hl := lookup_of_mem m hnd K v hm
  rw [hm1, lookup_addEntries] at hl
  have hv : v = wrapInt (sumFor K (consumedEntries fss sep name_idx date_idx hours_idx
      { name := [], date_str := [], hours := [] } queue)) := by
    split at hl
    · simpa [lookup] using hl.symm
    · simp [lookup] at hl
  refine ⟨hv, fun hpos hmax => ?_⟩
  have h0 := sumFor_nonneg K _ hpos
  rw [hv, wrapInt_of_range _ ⟨by unfold INT_MIN; omega, hmax⟩]
  exact h0

/-- C9 as amended, at the two lines for Alice. -/
theorem stored_value_is_sum_witness :
    do_consumers_work isoDate
        [String.toList "Alice;2023-03-15;4", String.toList "Alice;2023-03-20;6", POISON_PILL]
        ';' 0 1 2 [] =
      Outcome.returned [({ name := String.toList "Alice", month := 3, year := 2023 }, 10)] [] ∧
    (10 : Int) = wrapInt (sumFor { name := String.toList "Alice", month := 3, year := 2023 }
      (consumedEntries isoDate ';' 0 1 2 { name := [], date_str := [], hours := [] }
        [String.toList "Alice;2023-03-15;4", String.toList "Alice;2023-03-20;6", POISON_PILL])) :=
  ⟨by decide,
    (stored_value_is_sum isoDate ';' 0 1 2
      [String.toList "Alice;2023-03-15;4", String.toList "Alice;2023-03-20;6", POISON_PILL] []
      [({ name := String.toList "Alice", month := 3, year := 2023 }, 10)] (by decide)
      { name := String.toList "Alice", month := 3, year := 2023 } 10 (by decide)).1⟩

end TimeTracking
